import Mathlib

/-!
Verification of the TF-IDF indexing and ranking pipeline of `pageRank.py`
(class `PDFTextAnalyzer`).

Strings are modelled as lists of characters (`Str`).  The SQLite store is
modelled as explicit lists of rows for the two tables (`documents` and
`term_frequency`) together with the next AUTOINCREMENT id; each SQL statement
executed by the code is mirrored by an explicit state transformation.
Python floats are modelled exactly: the stored `tf_score` values are rational
(`count / total`), and score arithmetic involving `math.log` lives in `ℝ`
with `Real.log`.

External collaborators (the filesystem check, PyPDF2 text extraction, and the
possibility of an `sqlite3.Error` being raised by the engine) are inputs of
the embedding: `process_pdf` receives the extracted text directly, and an
optional failure index says at which SQL statement of the write phase the
engine raises, in which case the code's `conn.rollback()` restores the
committed state.
-/

/-- Text is modelled as a list of characters. -/
abbrev Str := List Char

/-- ASCII letter, the character class `[a-zA-Z]` of the regex in
`preprocess_text`. -/
def isAsciiLetter (c : Char) : Bool :=
  (97 ≤ c.toNat && c.toNat ≤ 122) || (65 ≤ c.toNat && c.toNat ≤ 90)

/-- Whitespace as matched by the regex class `\s` and by `str.split()` /
`str.strip()` (space, tab, newline, carriage return, vertical tab, form
feed). -/
def isPySpace (c : Char) : Bool :=
  c.toNat == 32 || c.toNat == 9 || c.toNat == 10 ||
  c.toNat == 13 || c.toNat == 11 || c.toNat == 12

/-- Characters kept by `re.sub(r'[^a-zA-Z\s]', '', text)`: everything that is
not a letter or whitespace is removed. -/
def keepChar (c : Char) : Bool := isAsciiLetter c || isPySpace c

/-- Word accumulator for `splitWS`; `cur` is the reversed current word. -/
def splitWSAcc (cur : Str) : Str → List Str
  | [] => if cur.isEmpty then [] else [cur.reverse]
  | c :: cs =>
    if isPySpace c then
      if cur.isEmpty then splitWSAcc [] cs
      else cur.reverse :: splitWSAcc [] cs
    else splitWSAcc (c :: cur) cs

/-- `text.split()`: split on runs of whitespace, producing no empty
fragments. -/
def splitWS (l : Str) : List Str := splitWSAcc [] l

/-- `word.strip()`: remove leading and trailing whitespace. -/
def pyStrip (w : Str) : Str :=
  ((w.dropWhile isPySpace).reverse.dropWhile isPySpace).reverse

/-- The fixed stop-word set of `preprocess_text`. -/
def stop_words : List Str :=
  [ "the", "a", "an", "and", "or", "but", "in", "on", "at",
    "to", "for", "of", "with", "by", "is", "are", "was", "were",
    "be", "been", "have", "has", "had", "do", "does", "did",
    "will", "would", "could", "should", "may", "might", "must",
    "this", "that", "these", "those", "i", "you", "he", "she",
    "it", "we", "they", "me", "him", "her", "us", "them"].map String.toList

/-- `preprocess_text`: lower-case, strip every character that is not a letter
or whitespace, split on whitespace dropping empties, and discard stop words
and tokens of length ≤ 2. -/
def preprocess_text (text : Str) : List Str :=
  let lowered := text.map Char.toLower
  let cleaned := lowered.filter keepChar
  let words0 := ((splitWS cleaned).map pyStrip).filter (fun w => !w.isEmpty)
  words0.filter (fun w => !stop_words.contains w && decide (2 < w.length))

/-- Auxiliary for `pyDedup`: drop elements already seen. -/
def pyDedupAux {α : Type} [DecidableEq α] (seen : List α) : List α → List α
  | [] => []
  | a :: t => if a ∈ seen then pyDedupAux seen t else a :: pyDedupAux (a :: seen) t

/-- First-occurrence deduplication, the iteration order of a Python
`Counter` / `dict` built by insertion. -/
def pyDedup {α : Type} [DecidableEq α] (l : List α) : List α := pyDedupAux [] l

/-- `calculate_term_frequency`: each distinct word of `words` is mapped to
`count / total`, in first-occurrence (`Counter`) order. -/
def calculate_term_frequency (words : List Str) : List (Str × ℚ) :=
  (pyDedup words).map
    (fun w => (w, (words.count w : ℚ) / (words.length : ℚ)))

/-- A row of the `documents` table. -/
structure DocRow where
  id : Nat
  filename : Str
  content : Str
  word_count : Nat
deriving DecidableEq

/-- A row of the `term_frequency` table (its own AUTOINCREMENT id is never
read by the code and is omitted). -/
structure TfRow where
  document_id : Nat
  term : Str
  frequency : Nat
  tf_score : ℚ
deriving DecidableEq

/-- The SQLite database: the two tables in rowid order, plus the next
AUTOINCREMENT id for `documents`. -/
structure DB where
  documents : List DocRow
  term_frequency : List TfRow
  next_id : Nat
deriving DecidableEq

/-- A fresh database, as produced by `init_database`. -/
def emptyDB : DB := { documents := [], term_frequency := [], next_id := 1 }

/-- The SQL statements issued by the write phase of `process_pdf`. -/
inductive Stmt where
  | insertDoc (filename content : Str) (word_count : Nat)
  | deleteTf (document_id : Nat)
  | insertTf (document_id : Nat) (term : Str) (frequency : Nat) (tf_score : ℚ)
deriving DecidableEq

/-- Effect of one SQL statement on the database.
`INSERT OR REPLACE INTO documents` deletes any row with the same filename
(UNIQUE constraint) and inserts a fresh row under a new AUTOINCREMENT id. -/
def applyStmt (db : DB) : Stmt → DB
  | .insertDoc f c wc =>
    { db with
      documents := db.documents.filter (fun r => !(r.filename == f)) ++
        [{ id := db.next_id, filename := f, content := c, word_count := wc }],
      next_id := db.next_id + 1 }
  | .deleteTf d =>
    { db with
      term_frequency := db.term_frequency.filter
        (fun r => !(r.document_id == d)) }
  | .insertTf d t fr s =>
    { db with
      term_frequency := db.term_frequency ++
        [{ document_id := d, term := t, frequency := fr, tf_score := s }] }

/-- The statement sequence of the write phase of `process_pdf` (lines
130-146): insert/replace the document row, then
`DELETE FROM term_frequency WHERE document_id = lastrowid`, then one insert
per term of the TF dictionary (frequency recomputed via `Counter`).
`lastrowid` after the `INSERT OR REPLACE` is the fresh id `db.next_id`. -/
def write_stmts (db : DB) (filename text : Str) (words : List Str) : List Stmt :=
  Stmt.insertDoc filename text words.length ::
  Stmt.deleteTf db.next_id ::
  (calculate_term_frequency words).map
    (fun p => Stmt.insertTf db.next_id p.1 (words.count p.1) p.2)

/-- Run the write phase as one transaction against the committed state
`committed`, with `pending` the connection's uncommitted view.  `failAt`
says at which statement (if any) the engine raises `sqlite3.Error`; the
code's exception handler then calls `conn.rollback()`, discarding the
pending changes, and returns failure.  Reaching the end of the statement
list is `conn.commit()`. -/
def run_tx (committed pending : DB) : List Stmt → Option Nat → DB × Bool
  | [], _ => (pending, true)
  | _ :: _, some 0 => (committed, false)
  | s :: rest, some (k + 1) =>
    run_tx committed (applyStmt pending s) rest (some k)
  | s :: rest, none => run_tx committed (applyStmt pending s) rest none

/-- `process_pdf`, given the text extracted by the external PDF collaborator
(empty text models both a missing/unreadable file and empty extraction, all
of which return `False` before any write) and the failure oracle for the
storage engine. -/
def process_pdf (db : DB) (filename text : Str) (failAt : Option Nat) :
    DB × Bool :=
  if text = [] then (db, false)
  else if preprocess_text text = [] then (db, false)
  else run_tx db db (write_stmts db filename text (preprocess_text text)) failAt

/-- `SELECT COUNT(*) FROM documents`. -/
def total_docs (db : DB) : Nat := db.documents.length

/-- The distinct terms of the `term_frequency` table (`GROUP BY term`). -/
def tf_terms (db : DB) : List Str := pyDedup (db.term_frequency.map (·.term))

/-- `COUNT(DISTINCT document_id)` for one term. -/
def doc_freq (db : DB) (t : Str) : Nat :=
  (((db.term_frequency.filter (fun r => r.term == t)).map
    (·.document_id)).dedup).length

/-- `calculate_idf`: if the store has no documents return the empty mapping,
else map each term of the `term_frequency` table to
`log(total_docs / doc_freq)`. -/
noncomputable def calculate_idf (db : DB) : List (Str × ℝ) :=
  if total_docs db = 0 then []
  else (tf_terms db).map
    (fun t => (t, Real.log ((total_docs db : ℝ) / (doc_freq db t : ℝ))))

/-- `term in idf_scores` / `idf_scores[term]`. -/
noncomputable def idf_lookup (db : DB) (t : Str) : Option ℝ :=
  (calculate_idf db).lookup t

/-- `SELECT tf_score FROM term_frequency WHERE document_id = ? AND term = ?`
followed by `fetchone()`. -/
def tf_lookup (db : DB) (doc_id : Nat) (t : Str) : Option ℚ :=
  ((db.term_frequency.filter
    (fun r => r.document_id == doc_id && r.term == t)).map (·.tf_score)).head?

/-- The inner loop of `search`: starting from `score = 0.0`, for each query
token (occurrences included) add `tf * idf` when the TF row exists and the
term is in the IDF dictionary. -/
noncomputable def query_score (db : DB) (qws : List Str) (doc_id : Nat) : ℝ :=
  qws.foldl
    (fun acc t =>
      match tf_lookup db doc_id t, idf_lookup db t with
      | some tf, some idf => acc + (tf : ℝ) * idf
      | _, _ => acc) 0

/-- The contribution of one query token to one document's score. -/
noncomputable def tfidf (db : DB) (doc_id : Nat) (t : Str) : ℝ :=
  match tf_lookup db doc_id t, idf_lookup db t with
  | some tf, some idf => (tf : ℝ) * idf
  | _, _ => 0

/-- Python dict assignment `d[k] = v`: update the value in place if the key
is present, else append the new binding. -/
def dictInsert (k : Str) (v : ℝ) : List (Str × ℝ) → List (Str × ℝ)
  | [] => [(k, v)]
  | (k₁, v₁) :: t => if k₁ = k then (k₁, v) :: t else (k₁, v₁) :: dictInsert k v t

/-- The `doc_scores` dict of `search`: iterate over
`SELECT id, filename FROM documents` in rowid order and store each score
that is strictly positive. -/
noncomputable def doc_scores_list (db : DB) (qws : List Str) :
    List (Str × ℝ) :=
  db.documents.foldl
    (fun acc d =>
      if 0 < query_score db qws d.id then
        dictInsert d.filename (query_score db qws d.id) acc
      else acc) []

/-- The comparison used to model
`sorted(doc_scores.items(), key=lambda x: x[1], reverse=True)`:
`a` may come before `b` when `b`'s score is at most `a`'s.  Python's sort is
stable, as is `List.mergeSort`. -/
noncomputable def scoreLe (a b : Str × ℝ) : Bool := decide (b.2 ≤ a.2)

/-- `search` up to (not including) the final truncation `[:top_n]`: tokenize
the query, return `[]` immediately when no tokens survive, else build the
score dict and sort it by score descending (stably). -/
noncomputable def search_ranked (db : DB) (q : Str) : List (Str × ℝ) :=
  if preprocess_text q = [] then []
  else List.mergeSort (doc_scores_list db (preprocess_text q)) scoreLe

/-- `search`: the ranked list truncated to the first `top_n` entries. -/
noncomputable def search (db : DB) (q : Str) (top_n : Nat) : List (Str × ℝ) :=
  (search_ranked db q).take top_n

/-- `search` with its default argument `top_n = 10`. -/
noncomputable def search_default (db : DB) (q : Str) : List (Str × ℝ) :=
  search db q 10

/-! Concrete scenario data, used for the testable-property scenarios and the
witnesses: two one-page documents with three indexable words each. -/

/-- The word (and one-word query) `machine`. -/
def sMachine : Str := "machine".toList

/-- The word `science`. -/
def sScience : Str := "science".toList

/-- The word (and one-word query) `data`. -/
def sData : Str := "data".toList

/-- Filename `a.pdf`. -/
def saPdf : Str := "a.pdf".toList

/-- Filename `A.pdf`. -/
def sAPdf : Str := "A.pdf".toList

/-- Filename `B.pdf`. -/
def sBPdf : Str := "B.pdf".toList

/-- Extracted text of document A. -/
def textA : Str := "machine learning data".toList

/-- Extracted text of document B. -/
def textB : Str := "machine learning science".toList

/-- Store after ingesting `a.pdf` whose text is the single word `machine`. -/
def dbA : DB := (process_pdf emptyDB saPdf sMachine none).1

/-- Store after re-ingesting `a.pdf`, now with the single word `science`. -/
def dbA2 : DB := (process_pdf dbA saPdf sScience none).1

/-- Store after ingesting document A (`machine learning data`). -/
def dbDocA : DB := (process_pdf emptyDB sAPdf textA none).1

/-- The two-document corpus of the spec's test scenarios: document A =
`machine learning data`, document B = `machine learning science`. -/
def db2 : DB := (process_pdf dbDocA sBPdf textB none).1

/-! ### Helper lemmas -/

lemma mem_pyDedupAux {α : Type} [DecidableEq α] :
    ∀ (l seen : List α) (x : α), x ∈ pyDedupAux seen l ↔ x ∈ l ∧ x ∉ seen := by
  intro l
  induction l with
  | nil => intro seen x; simp [pyDedupAux]
  | cons a t ih =>
    intro seen x
    by_cases ha : a ∈ seen <;> by_cases hxa : x = a <;>
      simp [pyDedupAux, ha, ih, hxa]

lemma nodup_pyDedupAux {α : Type} [DecidableEq α] :
    ∀ (l seen : List α), (pyDedupAux seen l).Nodup := by
  intro l
  induction l with
  | nil => intro seen; simp [pyDedupAux]
  | cons a t ih =>
    intro seen
    by_cases ha : a ∈ seen
    · simpa [pyDedupAux, ha] using ih seen
    · rw [show pyDedupAux seen (a :: t) = a :: pyDedupAux (a :: seen) t by
        simp [pyDedupAux, ha]]
      refine List.nodup_cons.mpr ⟨?_, ih _⟩
      intro hc
      exact ((mem_pyDedupAux t (a :: seen) a).mp hc).2 (List.mem_cons_self a seen)

lemma mem_pyDedup {α : Type} [DecidableEq α] (l : List α) (x : α) :
    x ∈ pyDedup l ↔ x ∈ l := by
  simp [pyDedup, mem_pyDedupAux]

lemma nodup_pyDedup {α : Type} [DecidableEq α] (l : List α) :
    (pyDedup l).Nodup :=
  nodup_pyDedupAux l []

lemma lookup_map_self {β : Type} (f : Str → β) :
    ∀ (ds : List Str) (t : Str), t ∈ ds →
      (ds.map (fun w => (w, f w))).lookup t = some (f t) := by
  intro ds
  induction ds with
  | nil => intro t ht; simp at ht
  | cons a r ih =>
    intro t ht
    by_cases h : t = a
    · subst h; simp [List.lookup]
    · have ht' : t ∈ r := by
        rcases List.mem_cons.mp ht with h1 | h1
        · exact absurd h1 h
        · exact h1
      have hba : (t == a) = false := beq_eq_false_iff_ne.mpr h
      simp [List.lookup, hba, ih t ht']

lemma run_tx_fail :
    ∀ (stmts : List Stmt) (committed pending : DB) (k : Nat),
      k < stmts.length →
      run_tx committed pending stmts (some k) = (committed, false) := by
  intro stmts
  induction stmts with
  | nil => intro c p k hk; simp at hk
  | cons s rest ih =>
    intro c p k hk
    cases k with
    | zero => rfl
    | succ k =>
      have hk' : k < rest.length := by simpa using hk
      exact ih c (applyStmt p s) k hk'

lemma idf_lookup_eq (db : DB) (h : total_docs db ≠ 0) (t : Str)
    (ht : t ∈ tf_terms db) :
    idf_lookup db t =
      some (Real.log ((total_docs db : ℝ) / (doc_freq db t : ℝ))) := by
  unfold idf_lookup calculate_idf
  rw [if_neg h]
  exact lookup_map_self _ (tf_terms db) t ht

/-! ### Claim theorems -/

/-- Claim C4: on a store with zero documents, `calculate_idf` returns the
empty mapping, returning before the per-term division is ever reached. -/
theorem calculate_idf_empty_store (db : DB) (h : db.documents = []) :
    calculate_idf db = [] := by
  unfold calculate_idf total_docs
  rw [h]
  rfl

/-- Witness for C4 at a concrete empty store. -/
theorem calculate_idf_empty_store_witness : calculate_idf emptyDB = [] :=
  calculate_idf_empty_store emptyDB rfl

/-- Claim C9: if the storage engine fails at any statement of the write
phase of `process_pdf`, the transaction is rolled back and the call reports
failure, leaving the committed store (the prior version of the document
included) exactly as it was. -/
theorem process_pdf_write_failure_rollback (db : DB) (f text : Str) (k : Nat)
    (hk : k < (write_stmts db f text (preprocess_text text)).length) :
    process_pdf db f text (some k) = (db, false) := by
  unfold process_pdf
  by_cases h1 : text = []
  · rw [if_pos h1]
  · rw [if_neg h1]
    by_cases h2 : preprocess_text text = []
    · rw [if_pos h2]
    · rw [if_neg h2]
      exact run_tx_fail _ db db k hk

/-- Witness for C9: failing at the very first write statement of a concrete
ingestion leaves the empty store untouched. -/
theorem process_pdf_write_failure_rollback_witness :
    process_pdf emptyDB saPdf sMachine (some 0) = (emptyDB, false) :=
  process_pdf_write_failure_rollback emptyDB saPdf sMachine 0 (by decide)

/-- Claim C2: for a non-empty token sequence, `calculate_term_frequency`
maps each occurring term to exactly `count / length`, and its keys are
exactly the distinct terms of the sequence (each once). -/
theorem calculate_term_frequency_spec (words : List Str) (h : words ≠ [])
    (t : Str) (ht : t ∈ words) :
    (calculate_term_frequency words).lookup t =
      some ((words.count t : ℚ) / (words.length : ℚ))
    ∧ ((calculate_term_frequency words).map Prod.fst).Nodup
    ∧ ∀ s : Str, s ∈ (calculate_term_frequency words).map Prod.fst ↔ s ∈ words := by
  have hkeys : (calculate_term_frequency words).map Prod.fst = pyDedup words := by
    unfold calculate_term_frequency
    rw [List.map_map]
    exact List.map_id _
  refine ⟨?_, ?_, ?_⟩
  · exact lookup_map_self _ (pyDedup words) t ((mem_pyDedup words t).mpr ht)
  · rw [hkeys]; exact nodup_pyDedup words
  · intro s; rw [hkeys]; exact mem_pyDedup words s

/-- Witness for C2 on the concrete token sequence
`[data, machine, data]` and the term `data` (count 2 of 3). -/
theorem calculate_term_frequency_spec_witness :
    (calculate_term_frequency [ sData, sMachine, sData ]).lookup sData =
      some ((List.count sData [ sData, sMachine, sData ] : ℚ) /
        (List.length [ sData, sMachine, sData ] : ℚ)) :=
  (calculate_term_frequency_spec [ sData, sMachine, sData ] (by decide)
    sData (by decide)).1

/-- Claim C3: on a store with at least one document, `calculate_idf` maps
every term of the term-frequency table to
`log(total_docs / doc_freq)`; a term present in every document gets weight
`0`, and a term present in exactly one document gets `log(total_docs)`. -/
theorem calculate_idf_spec (db : DB) (h : 1 ≤ total_docs db) (t : Str)
    (ht : t ∈ tf_terms db) :
    idf_lookup db t =
      some (Real.log ((total_docs db : ℝ) / (doc_freq db t : ℝ)))
    ∧ (doc_freq db t = total_docs db → idf_lookup db t = some 0)
    ∧ (doc_freq db t = 1 →
        idf_lookup db t = some (Real.log (total_docs db : ℝ))) := by
  have h0 : total_docs db ≠ 0 := by omega
  have hl := idf_lookup_eq db h0 t ht
  have hcast : (total_docs db : ℝ) ≠ 0 := Nat.cast_ne_zero.mpr h0
  refine ⟨hl, ?_, ?_⟩
  · intro hd
    rw [hl, hd, div_self hcast, Real.log_one]
  · intro hd
    rw [hl, hd, Nat.cast_one, div_one]

/-- Witness for C3 on the two-document corpus and the term `machine`. -/
theorem calculate_idf_spec_witness :
    idf_lookup db2 sMachine =
      some (Real.log ((total_docs db2 : ℝ) / (doc_freq db2 sMachine : ℝ))) :=
  (calculate_idf_spec db2 (by decide) sMachine (by decide)).1

/-- Claim C6: a query whose tokenization is empty makes `search` return the
empty result for every store state and every `top_n`, independently of any
IDF or score computation. -/
theorem search_empty_query_empty (db : DB) (q : Str) (n : Nat)
    (h : preprocess_text q = []) :
    search db q n = [] := by
  unfold search search_ranked
  rw [if_pos h]
  exact List.take_nil

/-- Witness for C6: a query of stop words and short tokens on the concrete
two-document corpus. -/
theorem search_empty_query_empty_witness :
    search db2 ( "the of it an".toList) 10 = [] :=
  search_empty_query_empty db2 ( "the of it an".toList) 10 (by decide)

unseal Rat.mul Rat.inv Rat.add in
/-- Claim C1 is violated by the code: after re-ingesting `a.pdf` (first
ingested with text `machine`, then with text `science`), the document row is
replaced (new id 2, new content), but the term entry derived from the old
content is still present in `term_frequency`, orphaned under the old
document id 1 — the `DELETE FROM term_frequency` of the write phase targets
`lastrowid`, which is the id of the freshly inserted replacement row, so it
never matches the old rows. -/
theorem process_pdf_reingest_stale_rows :
    dbA2.documents.map (fun r => (r.id, r.filename, r.content)) =
      [ (2, saPdf, sScience) ]
    ∧ dbA2.term_frequency.map (fun r => (r.document_id, r.term)) =
      [ (1, sMachine), (2, sScience) ] := by
  decide

lemma strCount_eq (x : Str) (l : List Str) :
    @List.count Str instBEqOfDecidableEq x l = List.count x l := by
  induction l with
  | nil => rfl
  | cons a t ih => simp [List.count_cons, ih]

lemma query_score_step (db : DB) (d : Nat) (acc : ℝ) (t : Str) :
    (match tf_lookup db d t, idf_lookup db t with
      | some tf, some idf => acc + (tf : ℝ) * idf
      | _, _ => acc) = acc + tfidf db d t := by
  unfold tfidf
  cases tf_lookup db d t <;> cases idf_lookup db t <;> simp

lemma query_score_foldl (db : DB) (d : Nat) :
    ∀ (l : List Str) (a : ℝ),
      List.foldl (fun acc t =>
        match tf_lookup db d t, idf_lookup db t with
        | some tf, some idf => acc + (tf : ℝ) * idf
        | _, _ => acc) a l = a + (l.map (tfidf db d)).sum := by
  intro l
  induction l with
  | nil => intro a; simp
  | cons t r ih =>
    intro a
    rw [List.foldl_cons, query_score_step, ih, List.map_cons, List.sum_cons]
    ring

lemma query_score_eq_sum (db : DB) (qws : List Str) (d : Nat) :
    query_score db qws d = (qws.map (tfidf db d)).sum := by
  unfold query_score
  rw [query_score_foldl]
  simp

/-- Claim C10: a document's score sums `tf × idf` over query token
occurrences, so a term occurring `k` times in the query contributes `k`
times its `tf × idf`; duplicating the whole query doubles every score and
leaves the set of strictly positive scores unchanged. -/
theorem query_score_counts_duplicate_terms (db : DB) (qws : List Str) (d : Nat) :
    query_score db qws d =
      ∑ t ∈ qws.toFinset, (qws.count t : ℝ) * tfidf db d t
    ∧ query_score db (qws ++ qws) d = 2 * query_score db qws d
    ∧ (0 < query_score db (qws ++ qws) d ↔ 0 < query_score db qws d) := by
  have hdouble : query_score db (qws ++ qws) d = 2 * query_score db qws d := by
    rw [query_score_eq_sum, query_score_eq_sum, List.map_append,
      List.sum_append, two_mul]
  refine ⟨?_, hdouble, ?_⟩
  · rw [query_score_eq_sum, Finset.sum_list_map_count]
    refine Finset.sum_congr rfl ?_
    intro x hx
    rw [nsmul_eq_mul, strCount_eq]
  · rw [hdouble]
    constructor
    · intro h2; linarith
    · intro h2; linarith

/-- Witness for C10 on the two-document corpus with the one-word query
`data`. -/
theorem query_score_counts_duplicate_terms_witness :
    query_score db2 [ sData ] 1 =
      ∑ t ∈ List.toFinset [ sData ], (List.count t [ sData ] : ℝ) *
        tfidf db2 1 t :=
  (query_score_counts_duplicate_terms db2 [ sData ] 1).1

lemma mem_dictInsert (k : Str) (v : ℝ) :
    ∀ (l : List (Str × ℝ)) (p : Str × ℝ), p ∈ dictInsert k v l → p.2 = v ∨ p ∈ l := by
  intro l
  induction l with
  | nil =>
    intro p hp
    simp only [dictInsert, List.mem_singleton] at hp
    exact Or.inl (by rw [hp])
  | cons a t ih =>
    obtain ⟨k₁, v₁⟩ := a
    intro p hp
    simp only [dictInsert] at hp
    by_cases h : k₁ = k
    · rw [if_pos h] at hp
      rcases List.mem_cons.mp hp with h1 | h1
      · exact Or.inl (by rw [h1])
      · exact Or.inr (List.mem_cons_of_mem _ h1)
    · rw [if_neg h] at hp
      rcases List.mem_cons.mp hp with h1 | h1
      · exact Or.inr (h1 ▸ List.mem_cons_self _ _)
      · rcases ih p h1 with h2 | h2
        · exact Or.inl h2
        · exact Or.inr (List.mem_cons_of_mem _ h2)

lemma doc_scores_foldl_pos (db : DB) (qws : List Str) :
    ∀ (docs : List DocRow) (acc : List (Str × ℝ)),
      (∀ p ∈ acc, 0 < p.2) →
      ∀ p ∈ docs.foldl (fun acc d =>
          if 0 < query_score db qws d.id then
            dictInsert d.filename (query_score db qws d.id) acc
          else acc) acc, 0 < p.2 := by
  intro docs
  induction docs with
  | nil => intro acc hacc p hp; exact hacc p hp
  | cons d rest ih =>
    intro acc hacc p hp
    rw [List.foldl_cons] at hp
    refine ih _ ?_ p hp
    by_cases h : 0 < query_score db qws d.id
    · rw [if_pos h]
      intro q hq
      rcases mem_dictInsert _ _ _ q hq with h1 | h1
      · rw [h1]; exact h
      · exact hacc q h1
    · rw [if_neg h]; exact hacc

lemma doc_scores_list_pos (db : DB) (qws : List Str) (p : Str × ℝ)
    (hp : p ∈ doc_scores_list db qws) : 0 < p.2 := by
  unfold doc_scores_list at hp
  exact doc_scores_foldl_pos db qws db.documents [] (by simp) p hp

lemma doc_scores_list_empty_query (db : DB) : doc_scores_list db [] = [] := by
  unfold doc_scores_list
  generalize db.documents = docs
  induction docs with
  | nil => rfl
  | cons d rest ih =>
    rw [List.foldl_cons, show query_score db [] d.id = 0 from rfl,
      if_neg (lt_irrefl (0:ℝ))]
    exact ih

lemma scoreLe_trans :
    ∀ (a b c : Str × ℝ), scoreLe a b = true → scoreLe b c = true →
      scoreLe a c = true := by
  intro a b c hab hbc
  rw [scoreLe, decide_eq_true_eq] at *
  exact le_trans hbc hab

lemma scoreLe_total : ∀ (a b : Str × ℝ), (scoreLe a b || scoreLe b a) = true := by
  intro a b
  rcases le_total a.2 b.2 with h | h <;> simp [scoreLe, h]

lemma search_ranked_pairwise (db : DB) (q : Str) :
    (search_ranked db q).Pairwise (fun a b : Str × ℝ => b.2 ≤ a.2) := by
  unfold search_ranked
  by_cases h : preprocess_text q = []
  · rw [if_pos h]; exact List.Pairwise.nil
  · rw [if_neg h]
    refine List.Pairwise.imp ?_
      (List.sorted_mergeSort scoreLe_trans scoreLe_total
        (doc_scores_list db (preprocess_text q)))
    intro a b hab
    rw [scoreLe, decide_eq_true_eq] at hab
    exact hab

/-- Claim C7: `search` returns at most `top_n` results (default 10), sorted
by score in descending order, with ties kept in the order the documents
appear in the score dict (built in store enumeration order) — the sort is
stable. -/
theorem search_sorted_bounded_stable (db : DB) (q : Str) (n : Nat) :
    (search db q n).length ≤ n
    ∧ (search db q n).Sorted (fun a b : Str × ℝ => b.2 ≤ a.2)
    ∧ search_default db q = search db q 10
    ∧ ∀ a b : Str × ℝ, a.2 = b.2 →
        [a, b].Sublist (doc_scores_list db (preprocess_text q)) →
        [a, b].Sublist (search_ranked db q) := by
  refine ⟨List.length_take_le n _, ?_, rfl, ?_⟩
  · exact (search_ranked_pairwise db q).sublist (List.take_sublist n _)
  · intro a b hab hsub
    unfold search_ranked
    by_cases h : preprocess_text q = []
    · rw [h, doc_scores_list_empty_query] at hsub
      exact absurd (List.Sublist.length_le hsub) (by simp)
    · rw [if_neg h]
      refine List.sublist_mergeSort scoreLe_trans scoreLe_total ?_ hsub
      refine List.pairwise_cons.mpr ⟨?_, ?_⟩
      · intro x hx
        rw [List.mem_singleton] at hx
        subst hx
        rw [scoreLe, decide_eq_true_eq, hab]
      · exact List.pairwise_singleton _ _

/-- Witness for C7 at the concrete two-document corpus, query `data`,
`top_n = 10`. -/
theorem search_sorted_bounded_stable_witness :
    (search db2 sData 10).length ≤ 10
    ∧ (search db2 sData 10).Sorted (fun a b : Str × ℝ => b.2 ≤ a.2) :=
  ⟨(search_sorted_bounded_stable db2 sData 10).1,
    (search_sorted_bounded_stable db2 sData 10).2.1⟩

lemma search_mem_pos (db : DB) (q : Str) (n : Nat) (p : Str × ℝ)
    (hp : p ∈ search db q n) : 0 < p.2 := by
  unfold search at hp
  have hp1 : p ∈ search_ranked db q := List.take_subset n _ hp
  unfold search_ranked at hp1
  by_cases h : preprocess_text q = []
  · rw [if_pos h] at hp1
    simp at hp1
  · rw [if_neg h] at hp1
    have hp2 : p ∈ doc_scores_list db (preprocess_text q) :=
      (List.mergeSort_perm _ scoreLe).mem_iff.mp hp1
    exact doc_scores_list_pos db _ p hp2

unseal Rat.mul Rat.inv Rat.add in
lemma idf_db2_machine : idf_lookup db2 sMachine = some 0 := by
  have h := idf_lookup_eq db2 (by decide) sMachine (by decide)
  rw [show total_docs db2 = 2 from by decide,
    show doc_freq db2 sMachine = 2 from by decide] at h
  rw [h]
  norm_num

unseal Rat.mul Rat.inv Rat.add in
lemma score_db2_machine (d : Nat) (hd : d = 1 ∨ d = 2) :
    query_score db2 [ sMachine ] d = 0 := by
  have htf : tf_lookup db2 d sMachine = some (1/3) := by
    rcases hd with h | h <;> subst h <;> decide
  rw [query_score_eq_sum]
  simp [tfidf, htf, idf_db2_machine]

unseal Rat.mul Rat.inv Rat.add in
lemma doc_scores_db2_machine : doc_scores_list db2 [ sMachine ] = [] := by
  unfold doc_scores_list
  rw [show db2.documents =
    [ ⟨1, sAPdf, textA, 3⟩, ⟨2, sBPdf, textB, 3⟩ ] from by decide]
  simp only [List.foldl_cons, List.foldl_nil]
  rw [score_db2_machine 1 (Or.inl rfl), score_db2_machine 2 (Or.inr rfl),
    if_neg (lt_irrefl (0:ℝ)), if_neg (lt_irrefl (0:ℝ))]

/-- Claim C5: every result `search` returns has a strictly positive score
(documents whose accumulated score is exactly 0 are excluded); in
particular, on the two-document corpus where both documents contain the
query term `machine` (document frequency 2, so IDF `= log(2/2) = 0`), the
result is empty. -/
theorem search_strict_positive_filter :
    (∀ (db : DB) (q : Str) (n : Nat) (p : Str × ℝ), p ∈ search db q n → 0 < p.2)
    ∧ search db2 sMachine 10 = [] := by
  refine ⟨search_mem_pos, ?_⟩
  unfold search search_ranked
  rw [show preprocess_text sMachine = [ sMachine ] from by decide]
  rw [if_neg (by simp : ¬([ sMachine ] = ([] : List Str)))]
  rw [doc_scores_db2_machine, List.mergeSort_nil, List.take_nil]

unseal Rat.mul Rat.inv Rat.add in
lemma idf_db2_data : idf_lookup db2 sData = some (Real.log 2) := by
  have h := idf_lookup_eq db2 (by decide) sData (by decide)
  rw [show total_docs db2 = 2 from by decide,
    show doc_freq db2 sData = 1 from by decide] at h
  rw [h]
  norm_num

unseal Rat.mul Rat.inv Rat.add in
lemma score_db2_data_1 :
    query_score db2 [ sData ] 1 = ((1/3 : ℚ) : ℝ) * Real.log 2 := by
  have htf : tf_lookup db2 1 sData = some (1/3) := by decide
  rw [query_score_eq_sum]
  simp [tfidf, htf, idf_db2_data]

unseal Rat.mul Rat.inv Rat.add in
lemma score_db2_data_2 : query_score db2 [ sData ] 2 = 0 := by
  have htf : tf_lookup db2 2 sData = none := by decide
  rw [query_score_eq_sum]
  simp [tfidf, htf]

lemma score_db2_data_pos : (0:ℝ) < ((1/3 : ℚ) : ℝ) * Real.log 2 := by
  have hl := Real.log_pos (by norm_num : (1:ℝ) < 2)
  positivity

unseal Rat.mul Rat.inv Rat.add in
lemma doc_scores_db2_data :
    doc_scores_list db2 [ sData ] = [ (sAPdf, ((1/3 : ℚ) : ℝ) * Real.log 2) ] := by
  unfold doc_scores_list
  rw [show db2.documents =
    [ ⟨1, sAPdf, textA, 3⟩, ⟨2, sBPdf, textB, 3⟩ ] from by decide]
  simp only [List.foldl_cons, List.foldl_nil]
  rw [score_db2_data_1, score_db2_data_2, if_pos score_db2_data_pos,
    if_neg (lt_irrefl (0:ℝ))]
  rfl

/-- The spec's second search scenario: query `data` on the two-document
corpus ranks document A alone, with score `(1/3) · log 2`. -/
lemma search_db2_data :
    search db2 sData 10 = [ (sAPdf, ((1/3 : ℚ) : ℝ) * Real.log 2) ] := by
  unfold search search_ranked
  rw [show preprocess_text sData = [ sData ] from by decide]
  rw [if_neg (by simp : ¬([ sData ] = ([] : List Str)))]
  rw [doc_scores_db2_data, List.mergeSort_singleton]
  rfl

/-- Witness for C5: the single result returned for the query `data` on the
two-document corpus indeed has a strictly positive score. -/
theorem search_strict_positive_filter_witness :
    (0:ℝ) < ((sAPdf, ((1/3 : ℚ) : ℝ) * Real.log 2) : Str × ℝ).2 :=
  search_strict_positive_filter.1 db2 sData 10 _
    (by rw [search_db2_data]; exact List.mem_singleton_self _)

lemma toLower_of_lower (c : Char) (h : 97 ≤ c.toNat) : Char.toLower c = c := by
  simp only [Char.toLower]
  rw [if_neg]
  omega

lemma toNat_ofNat_lower (n : Nat) (h1 : 97 ≤ n) (h2 : n ≤ 122) :
    (Char.ofNat n).toNat = n := by
  simp only [Char.ofNat]
  rw [dif_pos]
  · rfl
  · exact Or.inl (by omega)

lemma toLower_not_upper (c : Char) :
    ¬(65 ≤ (Char.toLower c).toNat ∧ (Char.toLower c).toNat ≤ 90) := by
  simp only [Char.toLower]
  by_cases h : c.toNat ≥ 65 ∧ c.toNat ≤ 90
  · rw [if_pos h]
    rw [toNat_ofNat_lower (c.toNat + 32) (by omega) (by omega)]
    omega
  · rw [if_neg h]
    omega

lemma isPySpace_eq_false_of_lower {c : Char} (h : 97 ≤ c.toNat) :
    isPySpace c = false := by
  simp only [isPySpace, Bool.or_eq_false_iff, beq_eq_false_iff_ne, ne_eq]
  omega

lemma keepChar_of_lower {c : Char} (h1 : 97 ≤ c.toNat) (h2 : c.toNat ≤ 122) :
    keepChar c = true := by
  simp only [keepChar, isAsciiLetter, Bool.or_eq_true, Bool.and_eq_true,
    decide_eq_true_eq]
  exact Or.inl (Or.inl ⟨h1, h2⟩)

lemma map_id_of_mem {α : Type} {f : α → α} :
    ∀ (l : List α), (∀ c ∈ l, f c = c) → l.map f = l := by
  intro l
  induction l with
  | nil => intro _; rfl
  | cons a t ih =>
    intro h
    rw [List.map_cons, h a (List.mem_cons_self a t),
      ih (fun c hc => h c (List.mem_cons_of_mem a hc))]

lemma pyStrip_subset (w : Str) : ∀ c ∈ pyStrip w, c ∈ w := by
  intro c hc
  unfold pyStrip at hc
  rw [List.mem_reverse] at hc
  have hc2 := (List.dropWhile_sublist _).subset hc
  rw [List.mem_reverse] at hc2
  exact (List.dropWhile_sublist _).subset hc2

lemma pyStrip_eq_self {w : Str} (h : ∀ c ∈ w, isPySpace c = false) :
    pyStrip w = w := by
  unfold pyStrip
  have h1 : w.dropWhile isPySpace = w := by
    cases w with
    | nil => rfl
    | cons a t =>
      exact List.dropWhile_cons_of_neg (by simp [h a (List.mem_cons_self a t)])
  rw [h1]
  have h2 : w.reverse.dropWhile isPySpace = w.reverse := by
    cases hw : w.reverse with
    | nil => rfl
    | cons a t =>
      refine List.dropWhile_cons_of_neg ?_
      have ha : a ∈ w := List.mem_reverse.mp (hw ▸ List.mem_cons_self a t)
      simp [h a ha]
  rw [h2, List.reverse_reverse]

lemma mem_splitWSAcc (p : Char → Prop) :
    ∀ (l cur w : Str),
      (∀ c ∈ cur, p c) →
      (∀ c ∈ l, isPySpace c = false → p c) →
      w ∈ splitWSAcc cur l →
      w ≠ [] ∧ ∀ c ∈ w, p c := by
  intro l
  induction l with
  | nil =>
    intro cur w hcur _ hw
    simp only [splitWSAcc] at hw
    by_cases hc : cur.isEmpty
    · rw [if_pos hc] at hw
      simp at hw
    · rw [if_neg hc] at hw
      rw [List.mem_singleton] at hw
      subst hw
      constructor
      · intro hnil
        exact hc (by simp [List.reverse_eq_nil_iff.mp hnil])
      · intro c hcw
        exact hcur c (List.mem_reverse.mp hcw)
  | cons a t ih =>
    intro cur w hcur hl hw
    simp only [splitWSAcc] at hw
    by_cases hsp : isPySpace a = true
    · rw [if_pos hsp] at hw
      have hl' : ∀ c ∈ t, isPySpace c = false → p c :=
        fun c hc hnc => hl c (List.mem_cons_of_mem a hc) hnc
      by_cases hc : cur.isEmpty
      · rw [if_pos hc] at hw
        exact ih [] w (by simp) hl' hw
      · rw [if_neg hc] at hw
        rcases List.mem_cons.mp hw with h1 | h1
        · subst h1
          constructor
          · intro hnil
            exact hc (by simp [List.reverse_eq_nil_iff.mp hnil])
          · intro c hcw
            exact hcur c (List.mem_reverse.mp hcw)
        · exact ih [] w (by simp) hl' h1
    · rw [if_neg hsp] at hw
      refine ih (a :: cur) w ?_
        (fun c hc hnc => hl c (List.mem_cons_of_mem a hc) hnc) hw
      intro d hd
      rcases List.mem_cons.mp hd with h1 | h1
      · rw [h1]
        exact hl a (List.mem_cons_self a t) (by simpa using hsp)
      · exact hcur d h1

lemma mem_splitWS (p : Char → Prop) (l : Str)
    (hl : ∀ c ∈ l, isPySpace c = false → p c) (w : Str) (hw : w ∈ splitWS l) :
    w ≠ [] ∧ ∀ c ∈ w, p c :=
  mem_splitWSAcc p l [] w (by simp) hl hw

lemma splitWSAcc_word :
    ∀ (w : Str), (∀ c ∈ w, isPySpace c = false) →
      ∀ (cur rest : Str),
        splitWSAcc cur (w ++ rest) = splitWSAcc (w.reverse ++ cur) rest := by
  intro w
  induction w with
  | nil => intro _ cur rest; simp
  | cons a t ih =>
    intro h cur rest
    rw [List.cons_append]
    rw [show splitWSAcc cur (a :: (t ++ rest)) =
        splitWSAcc (a :: cur) (t ++ rest) from by
      simp only [splitWSAcc]
      rw [if_neg (by simp [h a (List.mem_cons_self a t)])]]
    rw [ih (fun c hc => h c (List.mem_cons_of_mem a hc)) (a :: cur) rest]
    congr 1
    simp [List.reverse_cons, List.append_assoc]

lemma intercalate_cons_cons (s a b : Str) (t : List Str) :
    List.intercalate s (a :: b :: t) = a ++ s ++ List.intercalate s (b :: t) := by
  simp [List.intercalate, List.intersperse]

lemma intercalate_single (a : Str) : List.intercalate [ ' ' ] [a] = a := by
  simp [List.intercalate, List.intersperse]

lemma splitWS_intercalate :
    ∀ (ws : List Str),
      (∀ w ∈ ws, w ≠ [] ∧ ∀ c ∈ w, isPySpace c = false) →
      splitWS (List.intercalate [ ' ' ] ws) = ws := by
  intro ws
  induction ws with
  | nil => intro _; rfl
  | cons w t ih =>
    intro h
    obtain ⟨hne, hsp⟩ := h w (List.mem_cons_self _ _)
    have hrev : ¬(w.reverse.isEmpty = true) := by
      intro hh
      exact hne (List.reverse_eq_nil_iff.mp (by simpa using hh))
    cases t with
    | nil =>
      rw [intercalate_single]
      unfold splitWS
      rw [show (w : Str) = w ++ [] from (List.append_nil w).symm,
        splitWSAcc_word w hsp [] []]
      simp only [splitWSAcc, List.append_nil]
      rw [if_neg hrev, List.reverse_reverse]
    | cons w2 t2 =>
      rw [intercalate_cons_cons]
      unfold splitWS
      rw [List.append_assoc,
        show ([ ' ' ] ++ List.intercalate [ ' ' ] (w2 :: t2)) =
          ' ' :: List.intercalate [ ' ' ] (w2 :: t2) from rfl,
        splitWSAcc_word w hsp [] _]
      simp only [splitWSAcc, List.append_nil]
      rw [if_pos (by decide : isPySpace ' ' = true), if_neg hrev,
        List.reverse_reverse]
      have ih2 := ih (fun x hx => h x (List.mem_cons_of_mem w hx))
      unfold splitWS at ih2
      rw [ih2]

lemma mem_intercalate_space :
    ∀ (ws : List Str) (c : Char), c ∈ List.intercalate [ ' ' ] ws →
      c = ' ' ∨ ∃ w ∈ ws, c ∈ w := by
  intro ws
  induction ws with
  | nil =>
    intro c hc
    simp [List.intercalate, List.intersperse] at hc
  | cons w t ih =>
    intro c hc
    cases t with
    | nil =>
      rw [intercalate_single] at hc
      exact Or.inr ⟨w, List.mem_cons_self _ _, hc⟩
    | cons w2 t2 =>
      rw [intercalate_cons_cons] at hc
      rcases List.mem_append.mp hc with h1 | h1
      · rcases List.mem_append.mp h1 with h2 | h2
        · exact Or.inr ⟨w, List.mem_cons_self _ _, h2⟩
        · rw [List.mem_singleton] at h2
          exact Or.inl h2
      · rcases ih c h1 with h2 | ⟨w', hw', hcw⟩
        · exact Or.inl h2
        · exact Or.inr ⟨w', List.mem_cons_of_mem _ hw', hcw⟩

lemma preprocess_word_props (s : Str) (w : Str) (hw : w ∈ preprocess_text s) :
    stop_words.contains w = false ∧ 2 < w.length ∧
      ∀ c ∈ w, 97 ≤ c.toNat ∧ c.toNat ≤ 122 := by
  simp only [preprocess_text] at hw
  rcases List.mem_filter.mp hw with ⟨hw0, hcond⟩
  rw [Bool.and_eq_true] at hcond
  obtain ⟨hstop, hlen⟩ := hcond
  rcases List.mem_filter.mp hw0 with ⟨hw1, _⟩
  rcases List.mem_map.mp hw1 with ⟨w', hw', hws⟩
  refine ⟨by simpa using hstop, by simpa using hlen, ?_⟩
  intro c hc
  have hc' : c ∈ w' := pyStrip_subset w' c (hws ▸ hc)
  have hfrag := mem_splitWS (fun d => 97 ≤ d.toNat ∧ d.toNat ≤ 122) _
    (fun d hd hnd => by
      rcases List.mem_filter.mp hd with ⟨hd1, hd2⟩
      rcases List.mem_map.mp hd1 with ⟨x, _, hxd⟩
      have hup := hxd ▸ toLower_not_upper x
      simp only [keepChar, isAsciiLetter, Bool.or_eq_true, Bool.and_eq_true,
        decide_eq_true_eq] at hd2
      rcases hd2 with (⟨h1, h2⟩ | ⟨h1, h2⟩) | hsp2
      · exact ⟨h1, h2⟩
      · exact absurd ⟨h1, h2⟩ hup
      · rw [hnd] at hsp2
        exact absurd hsp2 (by simp)) w' hw'
  exact hfrag.2 c hc'

/-- Claim C8: the tokenizer is idempotent after one pass — re-tokenizing the
whitespace-joined output of `preprocess_text` yields exactly the same token
sequence. -/
theorem preprocess_text_idempotent (s : Str) :
    preprocess_text (List.intercalate [ ' ' ] (preprocess_text s)) =
      preprocess_text s := by
  set ws := preprocess_text s with hws
  have hprops : ∀ w ∈ ws, stop_words.contains w = false ∧ 2 < w.length ∧
      ∀ c ∈ w, 97 ≤ c.toNat ∧ c.toNat ≤ 122 :=
    fun w hw => preprocess_word_props s w hw
  have hwords : ∀ w ∈ ws, w ≠ [] ∧ ∀ c ∈ w, isPySpace c = false := by
    intro w hw
    constructor
    · intro hnil
      have := (hprops w hw).2.1
      rw [hnil] at this
      simp at this
    · exact fun c hc => isPySpace_eq_false_of_lower ((hprops w hw).2.2 c hc).1
  have hchar : ∀ c ∈ List.intercalate [ ' ' ] ws,
      Char.toLower c = c ∧ keepChar c = true := by
    intro c hc
    rcases mem_intercalate_space ws c hc with h | ⟨w, hw, hcw⟩
    · subst h
      exact ⟨by decide, by decide⟩
    · obtain ⟨h1, h2⟩ := (hprops w hw).2.2 c hcw
      exact ⟨toLower_of_lower c h1, keepChar_of_lower h1 h2⟩
  simp only [preprocess_text]
  rw [map_id_of_mem _ (fun c hc => (hchar c hc).1)]
  rw [List.filter_eq_self.mpr (fun c hc => (hchar c hc).2)]
  rw [splitWS_intercalate ws hwords]
  rw [map_id_of_mem _ (fun w hw => pyStrip_eq_self ((hwords w hw).2))]
  rw [show List.filter (fun w => !w.isEmpty) ws = ws from
    List.filter_eq_self.mpr (fun w hw => by
      have hne := (hwords w hw).1
      cases w with
      | nil => exact absurd rfl hne
      | cons a t => rfl)]
  rw [show List.filter
      (fun w => !stop_words.contains w && decide (2 < w.length)) ws = ws from
    List.filter_eq_self.mpr (fun w hw => by
      have hnm : w ∉ stop_words := by simpa using (hprops w hw).1
      simp [hnm, (hprops w hw).2.1])]

/-- Witness for C8 at a concrete messy input. -/
theorem preprocess_text_idempotent_witness :
    preprocess_text (List.intercalate [ ' ' ]
      (preprocess_text ( "The Machine, learning; DATA 42 co2!".toList))) =
      preprocess_text ( "The Machine, learning; DATA 42 co2!".toList) :=
  preprocess_text_idempotent ( "The Machine, learning; DATA 42 co2!".toList)
